import Mathlib

/-!
Verification of the EEG decoding pipeline of this repository against its
specification.  The embedding covers the two source files:

* `src/models.py` — the `predict` aggregation over crops and models;
* `bokeh_widgets/test_widget.py` — event decoding (`on_run_change`),
  epoch extraction and the validation loop (`on_validate`).

Machine floats are modelled by `ℚ` (the properties at stake are order and
exact-arithmetic properties of the aggregation, not rounding behavior);
numpy arrays by nested lists; the leading singleton batch axis of the
Python arrays is dropped.
-/

namespace Cybathlon

/-- A channels × samples matrix of voltages, or a crops × classes
probability matrix. -/
abbrev Mat := List (List ℚ)

/-- First index at which value `v` occurs in `l` (`l.length` if absent).
This is the tie-break of numpy `argmin`/`argmax`: the first occurrence of
the extremal value wins. -/
def firstIdx (v : ℚ) : List ℚ → ℕ
  | [] => 0
  | x :: xs => if x = v then 0 else firstIdx v xs + 1

/-- Minimum of a list of rationals (`0` for `[]`, where numpy raises). -/
def minL : List ℚ → ℚ
  | [] => 0
  | x :: xs => xs.foldl min x

/-- Maximum of a list of rationals (`0` for `[]`, where numpy raises). -/
def maxL : List ℚ → ℚ
  | [] => 0
  | x :: xs => xs.foldl max x

/-- Embedding of numpy `argmin` on a 1-D array: first index of the minimal
value. -/
def argminL (l : List ℚ) : ℕ := firstIdx (minL l) l

/-- Embedding of numpy `argmax` on a 1-D array: first index of the maximal
value. -/
def argmaxL (l : List ℚ) : ℕ := firstIdx (maxL l) l

/-- Left scan locating the first element of maximal score: the running best
is replaced only by a strictly larger score. -/
def pick (c : ℕ → ℕ) : ℕ → List ℕ → ℕ
  | b, [] => b
  | b, k :: ks => pick c (if c b < c k then k else b) ks

/-- Embedding of `Counter(xs).most_common()[0][0]`: the most frequent value
of the list, ties broken by first encounter (`Counter` iterates keys in
insertion order and `most_common`'s sort is stable).  Returns `0` on `[]`,
where Python raises `IndexError`. -/
def mostCommon (l : List ℕ) : ℕ :=
  match l with
  | [] => 0
  | x :: xs => pick (fun v => l.count v) x xs

/-- Elementwise sum of two matrices (all uses have agreeing shapes). -/
def addMatrix (A B : Mat) : Mat := List.zipWith (List.zipWith (· + ·)) A B

/-- Embedding of `np.sum(mats, axis=0)` over a list of equally-shaped
matrices. -/
def sumMatrices : List Mat → Mat
  | [] => []
  | [A] => A
  | A :: rest => addMatrix A (sumMatrices rest)

/-- Crop length in samples, `round(fs * crop_len)`. -/
def cropSamples (fs crop_len : ℚ) : ℕ := (round (fs * crop_len)).toNat

/-- Modelled from the spec: the function `cropping` is defined in
`src/preprocessing.py`, which is not among the sources.  The spec fixes
that the cropper yields `n_crops` sub-windows, each of
`round(fs * crop_len)` samples, drawn from within the epoch, the placement
policy being a configuration choice; we model contiguous tiling clamped to
the epoch. -/
def cropping (X : Mat) (fs : ℚ) (n_crops : ℕ) (crop_len : ℚ) : List Mat :=
  (List.range n_crops).map (fun i =>
    X.map (fun ch => (ch.drop (i * cropSamples fs crop_len)).take (cropSamples fs crop_len)))

/-- The three optional preprocessing transforms.  Modelled from the spec:
their numerical content is in `src/preprocessing.py`, which is not among
the sources, so each step is an opaque parameter; the spec fixes only the
order and the toggling. -/
structure PreprocSteps where
  reref : List Mat → List Mat
  filt : List Mat → List Mat
  std : List Mat → List Mat

/-- Modelled from the spec: `preprocessing` applies re-reference, then
filter, then standardize; a disabled step is the identity. -/
def preprocessing (pp : PreprocSteps) (X : List Mat) (_fs : ℚ)
    (should_reref should_filter should_standardize : Bool) : List Mat :=
  let X1 := if should_reref then pp.reref X else X
  let X2 := if should_filter then pp.filt X1 else X1
  if should_standardize then pp.std X2 else X2

/-- An opaque trained model handle with the two capabilities of the
classifier bank: `predictProba` (convnet: one row of class scores per
crop) and `predictLabel` (classical pipeline: one hard label per crop). -/
structure Model where
  predictProba : List Mat → Mat
  predictLabel : List Mat → List ℕ

/-- The `models` argument of `predict`: a bare model or a list
(the Python code dispatches on `isinstance(models, list)`). -/
inductive Models where
  | single : Model → Models
  | list : List Model → Models

/-- Embedding of `if not isinstance(models, list): models = [models]`. -/
def normalizeModels : Models → List Model
  | Models.single m => [m]
  | Models.list ms => ms

/-- Embedding of `predict` from `src/models.py` (lines 70–101): normalize
the model argument, crop, then either sum per-model probability matrices,
take the per-crop argmax and majority-vote (convnet), or concatenate the
per-model hard labels and majority-vote (classical). -/
def predict (X : Mat) (models : Models) (is_convnet : Bool)
    (n_crops : ℕ) (crop_len fs : ℚ)
    (should_reref should_filter should_standardize : Bool)
    (pp : PreprocSteps) : ℕ :=
  let ms := normalizeModels models
  let Xc := cropping X fs n_crops crop_len
  if is_convnet then
    let Xp := preprocessing pp Xc fs should_reref should_filter should_standardize
    let y_prob := ms.map (fun m => m.predictProba Xp)
    let y_probs := sumMatrices y_prob
    let y_preds := y_probs.map argmaxL
    mostCommon y_preds
  else
    let y_preds := (ms.map (fun m => m.predictLabel Xc)).flatten
    mostCommon y_preds

/-- The summed probability matrix of the neural path: the per-model
per-crop probability matrices, summed elementwise across models. -/
def neuralSummedProbs (X : Mat) (ms : List Model) (n_crops : ℕ)
    (crop_len fs : ℚ) (r f s : Bool) (pp : PreprocSteps) : Mat :=
  sumMatrices (ms.map (fun m =>
    m.predictProba (preprocessing pp (cropping X fs n_crops crop_len) fs r f s)))

/-- The per-crop argmax votes of the neural path. -/
def neuralVotes (X : Mat) (ms : List Model) (n_crops : ℕ)
    (crop_len fs : ℚ) (r f s : Bool) (pp : PreprocSteps) : List ℕ :=
  (neuralSummedProbs X ms n_crops crop_len fs r f s pp).map argmaxL

/-- The concatenated per-model per-crop hard labels of the classical
path. -/
def classicalVotes (X : Mat) (ms : List Model) (n_crops : ℕ)
    (crop_len fs : ℚ) : List ℕ :=
  (ms.map (fun m => m.predictLabel (cropping X fs n_crops crop_len))).flatten

/-- Python slice index resolution for `l[start:stop]` (numpy basic slicing
follows it): a negative index counts from the end, then both indices are
clamped to `[0, n]`. -/
def pyIdx (n i : ℤ) : ℤ := if i < 0 then max 0 (n + i) else min i n

/-- Python list / 1-D numpy slice `l[start:stop]`. -/
def pySlice (l : List ℚ) (start stop : ℤ) : List ℚ :=
  (l.take (pyIdx (l.length : ℤ) stop).toNat).drop (pyIdx (l.length : ℤ) start).toNat

/-- Embedding of `end_idx = np.argmin(abs(ts - self._data['ts']))` from
`on_validate`. -/
def endIdx (ts : ℚ) (times : List ℚ) : ℕ :=
  argminL (times.map (fun t => |ts - t|))

/-- Embedding of the epoch slice of `on_validate`:
`start_idx = end_idx - self.win_len` and
`epoch = self._data['values'][np.newaxis, :, start_idx:end_idx]`
(batch axis dropped).  Note there is no bounds check: a negative
`start_idx` goes through Python's negative-index slicing. -/
def extractEpoch (values : Mat) (times : List ℚ) (ts : ℚ) (win_len : ℕ) : Mat :=
  values.map (fun ch => pySlice ch ((endIdx ts times : ℤ) - win_len) (endIdx ts times))

/-- Errors the extraction step could surface.  `configError` is the spec's
ConfigurationError; `valueError` is what `np.argmin` raises on an empty
timestamp array — the only exception this extraction code can actually
raise (Python slicing is total). -/
inductive ExtractErr where
  | configError
  | valueError
  deriving DecidableEq

/-- Epoch extraction together with its error behavior. -/
def extractEpochE (values : Mat) (times : List ℚ) (ts : ℚ) (win_len : ℕ) :
    Except ExtractErr Mat :=
  if times = [] then Except.error ExtractErr.valueError
  else Except.ok (extractEpoch values times ts win_len)

/-- Embedding of the marker decode of `on_run_change`: `str(marker)` must
have exactly two characters and its first character, read as a digit, must
be a key of `markers_decoding`; any other marker yields `none` (silent
discard).  For a natural number the decimal string is the reversed digit
list, so the first character is the last element of `Nat.digits 10`. -/
def decodeMarker (table : List ℕ) (marker : ℕ) : Option ℕ :=
  if (Nat.digits 10 marker).length = 2 then
    let label := (Nat.digits 10 marker).getLastD 0
    if label ∈ table then some label else none
  else none

/-- The `decoded_events` loop of `on_run_change`: keep `(ts, first digit)`
for the markers `decodeMarker` accepts, in stream order. -/
def decodeRun (table : List ℕ) (events : List (ℕ × ℕ)) : List (ℕ × ℕ) :=
  events.filterMap (fun p => (decodeMarker table p.2).map (fun d => (p.1, d)))

/-- Stored events: `[(ts / self.fs, action) for ts, action in
decoded_events]`. -/
def storedEvents (table : List ℕ) (fs : ℚ) (events : List (ℕ × ℕ)) :
    List (ℚ × ℕ) :=
  (decodeRun table events).map (fun p => ((p.1 : ℚ) / fs, p.2))

/-- The `win_len` property, `int(self.fs * self.slider_win_len.value)`
(Python `int` truncates; both factors are positive in the widget). -/
def winLen (fs win_secs : ℚ) : ℕ := (⌊fs * win_secs⌋).toNat

/-- The widget state one validation pass reads. -/
structure RunConfig where
  models : Models
  is_convnet : Bool
  n_crops : ℕ
  crop_len : ℚ
  fs : ℚ
  win_secs : ℚ
  should_reref : Bool
  should_filter : Bool
  should_standardize : Bool
  pp : PreprocSteps
  markersDecoding : ℕ → ℕ
  decoding2pred : ℕ → ℕ

/-- The loaded run data (`self._data`). -/
structure RunData where
  values : Mat
  times : List ℚ
  events : List (ℚ × ℕ)

/-- One iteration of the `on_validate` loop: slice the epoch, predict, and
pair the timestamp with the decoded ground truth and the prediction. -/
def processEvent (cfg : RunConfig) (d : RunData) (ev : ℚ × ℕ) : ℚ × ℕ × ℕ :=
  let epoch := extractEpoch d.values d.times ev.1 (winLen cfg.fs cfg.win_secs)
  let y_pred := predict epoch cfg.models cfg.is_convnet cfg.n_crops cfg.crop_len
    cfg.fs cfg.should_reref cfg.should_filter cfg.should_standardize cfg.pp
  (ev.1, cfg.decoding2pred (cfg.markersDecoding ev.2), y_pred)

/-- The `on_validate` loop: one `chrono_source.stream` append per event, in
event order, onto the incoming log. -/
def onValidate (cfg : RunConfig) (d : RunData) (log : List (ℚ × ℕ × ℕ)) :
    List (ℚ × ℕ × ℕ) :=
  d.events.foldl (fun acc ev => acc ++ [processEvent cfg d ev]) log

/-- A full pass: `on_validate_start` calls `update_widget`, which resets
`chrono_source.data` to the empty log, and then schedules `on_validate`. -/
def validationPass (cfg : RunConfig) (d : RunData) : List (ℚ × ℕ × ℕ) :=
  onValidate cfg d []

/-- Spec-side definition (claim C1): sum of the rows of a matrix, i.e. the
column sums obtained by summing across crops. -/
def colSums : Mat → List ℚ
  | [] => []
  | [r] => r
  | r :: rs => List.zipWith (· + ·) r (colSums rs)

/-- Spec-side definition, written from the spec's words for claim C1: the
final label is the argmax over the class-score vector obtained by summing
the per-crop probability matrices elementwise across models and then
summing across crops. -/
def specNeuralLabel (mats : List Mat) : ℕ := argmaxL (colSums (sumMatrices mats))

/-- Identity preprocessing steps, used to instantiate the opaque transforms
in concrete scenarios. -/
def idSteps : PreprocSteps := { reref := id, filt := id, std := id }

/-- A concrete neural model for the four-crop scenario: its probability
matrix gives class 3 the largest column sum while three of the four crops
vote class 0. -/
def cexNeuralModel : Model :=
  { predictProba := fun _ => [[0, 0, 0, 10], [5, 0, 0, 4], [5, 0, 0, 4], [5, 0, 0, 4]]
    predictLabel := fun _ => [] }

/-- Classical example model emitting the hard labels [2, 2, 1]. -/
def mval221 : Model := { predictProba := fun _ => [], predictLabel := fun _ => [2, 2, 1] }

/-- Classical example model emitting the hard labels [2, 1, 1]. -/
def mval211 : Model := { predictProba := fun _ => [], predictLabel := fun _ => [2, 1, 1] }

/-- Classical example model emitting the hard labels [1, 1, 1]. -/
def mval111 : Model := { predictProba := fun _ => [], predictLabel := fun _ => [1, 1, 1] }

/-- Classical example model emitting the hard labels [0, 1, 0, 1]. -/
def mval0101 : Model := { predictProba := fun _ => [], predictLabel := fun _ => [0, 1, 0, 1] }

/-- A concrete mismatched recording: two channels of three samples each. -/
def cexValues : Mat := [[1, 2, 3], [4, 5, 6]]

/-- Five timestamps, deliberately more than the three samples of
`cexValues`. -/
def cexTimes : List ℚ := [0, 1, 2, 3, 4]

/-- A well-formed one-channel recording of ten samples at 5 Hz. -/
def recVals : Mat := [[0, 1, 2, 3, 4, 5, 6, 7, 8, 9]]

/-- The matching timestamps of `recVals`: sample k at k/5 seconds. -/
def recTimes : List ℚ := [0, 1/5, 2/5, 3/5, 4/5, 1, 6/5, 7/5, 8/5, 9/5]

/-!
## Helper lemmas
-/

theorem predict_convnet (X : Mat) (ms : List Model) (n_crops : ℕ)
    (crop_len fs : ℚ) (r f s : Bool) (pp : PreprocSteps) :
    predict X (Models.list ms) true n_crops crop_len fs r f s pp
      = mostCommon (neuralVotes X ms n_crops crop_len fs r f s pp) := rfl

theorem predict_classical (X : Mat) (ms : List Model) (n_crops : ℕ)
    (crop_len fs : ℚ) (r f s : Bool) (pp : PreprocSteps) :
    predict X (Models.list ms) false n_crops crop_len fs r f s pp
      = mostCommon (classicalVotes X ms n_crops crop_len fs) := rfl

theorem pick_eq_or_mem (c : ℕ → ℕ) (ks : List ℕ) (b : ℕ) :
    pick c b ks = b ∨ pick c b ks ∈ ks := by
  induction ks generalizing b with
  | nil => exact Or.inl rfl
  | cons k ks ih =>
    simp only [pick]
    rcases ih (if c b < c k then k else b) with h | h
    · rw [h]
      split
      · exact Or.inr (List.mem_cons_self _ _)
      · exact Or.inl rfl
    · exact Or.inr (List.mem_cons_of_mem _ h)

theorem pick_ge_start (c : ℕ → ℕ) (ks : List ℕ) (b : ℕ) :
    c b ≤ c (pick c b ks) := by
  induction ks generalizing b with
  | nil => exact le_refl _
  | cons k ks ih =>
    simp only [pick]
    split
    · exact le_trans (le_of_lt (by assumption)) (ih k)
    · exact ih b

theorem pick_ge (c : ℕ → ℕ) (ks : List ℕ) (b : ℕ) :
    ∀ x ∈ ks, c x ≤ c (pick c b ks) := by
  induction ks generalizing b with
  | nil => intro x hx; cases hx
  | cons k ks ih =>
    intro x hx
    simp only [pick]
    rcases List.mem_cons.mp hx with rfl | hx
    · split
      · exact pick_ge_start c ks x
      · exact le_trans (le_of_not_lt (by assumption)) (pick_ge_start c ks b)
    · exact ih _ x hx

theorem pick_decomp (c : ℕ → ℕ) (ks : List ℕ) (b : ℕ) :
    pick c b ks = b ∨
      ∃ l₁ l₂, ks = l₁ ++ pick c b ks :: l₂ ∧ c b < c (pick c b ks) ∧
        ∀ y ∈ l₁, c y < c (pick c b ks) := by
  induction ks generalizing b with
  | nil => exact Or.inl rfl
  | cons k ks ih =>
    simp only [pick]
    by_cases hbk : c b < c k
    · simp only [if_pos hbk]
      rcases ih k with h | ⟨l₁, l₂, hks, hlt, hall⟩
      · refine Or.inr ⟨[], ks, ?_, ?_, ?_⟩
        · rw [h]; rfl
        · rw [h]; exact hbk
        · intro y hy; cases hy
      · refine Or.inr ⟨k :: l₁, l₂, ?_, lt_trans hbk hlt, ?_⟩
        · rw [List.cons_append]; exact congrArg (k :: ·) hks
        · intro y hy
          rcases List.mem_cons.mp hy with rfl | hy
          · exact hlt
          · exact hall y hy
    · simp only [if_neg hbk]
      rcases ih b with h | ⟨l₁, l₂, hks, hlt, hall⟩
      · exact Or.inl h
      · refine Or.inr ⟨k :: l₁, l₂, ?_, hlt, ?_⟩
        · rw [List.cons_append]; exact congrArg (k :: ·) hks
        · intro y hy
          rcases List.mem_cons.mp hy with rfl | hy
          · exact lt_of_le_of_lt (le_of_not_lt hbk) hlt
          · exact hall y hy

theorem mostCommon_cons (x : ℕ) (xs : List ℕ) :
    mostCommon (x :: xs) = pick (fun v => (x :: xs).count v) x xs := rfl

theorem mostCommon_mem (l : List ℕ) (h : l ≠ []) : mostCommon l ∈ l := by
  match l with
  | x :: xs =>
    rw [mostCommon_cons]
    rcases pick_eq_or_mem (fun v => (x :: xs).count v) xs x with h1 | h1
    · rw [h1]; exact List.mem_cons_self _ _
    · exact List.mem_cons_of_mem _ h1

theorem mostCommon_count_ge (l : List ℕ) :
    ∀ x ∈ l, l.count x ≤ l.count (mostCommon l) := by
  match l with
  | [] => intro x hx; cases hx
  | y :: ys =>
    intro x hx
    rw [mostCommon_cons]
    rcases List.mem_cons.mp hx with rfl | hx
    · exact pick_ge_start (fun v => (x :: ys).count v) ys x
    · exact pick_ge (fun v => (y :: ys).count v) ys y x hx

theorem mostCommon_decomp (l : List ℕ) (h : l ≠ []) :
    ∃ l₁ l₂, l = l₁ ++ mostCommon l :: l₂ ∧
      ∀ y ∈ l₁, l.count y < l.count (mostCommon l) := by
  match l with
  | y :: ys =>
    rw [mostCommon_cons]
    rcases pick_decomp (fun v => (y :: ys).count v) ys y with h1 | ⟨l₁, l₂, hks, hlt, hall⟩
    · refine ⟨[], ys, ?_, ?_⟩
      · rw [h1]; rfl
      · intro z hz; cases hz
    · refine ⟨y :: l₁, l₂, ?_, ?_⟩
      · rw [List.cons_append]; exact congrArg (y :: ·) hks
      · intro z hz
        rcases List.mem_cons.mp hz with rfl | hz
        · exact hlt
        · exact hall z hz

theorem foldl_min_le_start (xs : List ℚ) (x : ℚ) : xs.foldl min x ≤ x := by
  induction xs generalizing x with
  | nil => exact le_refl x
  | cons y ys ih =>
    simp only [List.foldl_cons]
    exact le_trans (ih (min x y)) (min_le_left x y)

theorem foldl_min_le (xs : List ℚ) (x : ℚ) : ∀ y ∈ xs, xs.foldl min x ≤ y := by
  induction xs generalizing x with
  | nil => intro y hy; cases hy
  | cons z zs ih =>
    intro y hy
    simp only [List.foldl_cons]
    rcases List.mem_cons.mp hy with rfl | hy
    · exact le_trans (foldl_min_le_start zs (min x y)) (min_le_right x y)
    · exact ih (min x z) y hy

theorem foldl_min_mem (xs : List ℚ) (x : ℚ) :
    xs.foldl min x = x ∨ xs.foldl min x ∈ xs := by
  induction xs generalizing x with
  | nil => exact Or.inl rfl
  | cons z zs ih =>
    simp only [List.foldl_cons]
    rcases ih (min x z) with h | h
    · rcases le_total x z with hxz | hzx
      · exact Or.inl (by rw [h, min_eq_left hxz])
      · exact Or.inr (by rw [h, min_eq_right hzx]; exact List.mem_cons_self _ _)
    · exact Or.inr (List.mem_cons_of_mem _ h)

theorem minL_le (l : List ℚ) : ∀ x ∈ l, minL l ≤ x := by
  match l with
  | [] => intro x hx; cases hx
  | y :: ys =>
    intro x hx
    rcases List.mem_cons.mp hx with rfl | hx
    · exact foldl_min_le_start ys x
    · exact foldl_min_le ys y x hx

theorem minL_mem (l : List ℚ) (h : l ≠ []) : minL l ∈ l := by
  match l with
  | y :: ys =>
    rcases foldl_min_mem ys y with h1 | h1
    · rw [minL, h1]; exact List.mem_cons_self _ _
    · rw [minL]; exact List.mem_cons_of_mem _ h1

theorem foldl_max_ge_start (xs : List ℚ) (x : ℚ) : x ≤ xs.foldl max x := by
  induction xs generalizing x with
  | nil => exact le_refl x
  | cons y ys ih =>
    simp only [List.foldl_cons]
    exact le_trans (le_max_left x y) (ih (max x y))

theorem foldl_max_ge (xs : List ℚ) (x : ℚ) : ∀ y ∈ xs, y ≤ xs.foldl max x := by
  induction xs generalizing x with
  | nil => intro y hy; cases hy
  | cons z zs ih =>
    intro y hy
    simp only [List.foldl_cons]
    rcases List.mem_cons.mp hy with rfl | hy
    · exact le_trans (le_max_right x y) (foldl_max_ge_start zs (max x y))
    · exact ih (max x z) y hy

theorem foldl_max_mem (xs : List ℚ) (x : ℚ) :
    xs.foldl max x = x ∨ xs.foldl max x ∈ xs := by
  induction xs generalizing x with
  | nil => exact Or.inl rfl
  | cons z zs ih =>
    simp only [List.foldl_cons]
    rcases ih (max x z) with h | h
    · rcases le_total z x with hzx | hxz
      · exact Or.inl (by rw [h, max_eq_left hzx])
      · exact Or.inr (by rw [h, max_eq_right hxz]; exact List.mem_cons_self _ _)
    · exact Or.inr (List.mem_cons_of_mem _ h)

theorem maxL_ge (l : List ℚ) : ∀ x ∈ l, x ≤ maxL l := by
  match l with
  | [] => intro x hx; cases hx
  | y :: ys =>
    intro x hx
    rcases List.mem_cons.mp hx with rfl | hx
    · exact foldl_max_ge_start ys x
    · exact foldl_max_ge ys y x hx

theorem maxL_mem (l : List ℚ) (h : l ≠ []) : maxL l ∈ l := by
  match l with
  | y :: ys =>
    rcases foldl_max_mem ys y with h1 | h1
    · rw [maxL, h1]; exact List.mem_cons_self _ _
    · rw [maxL]; exact List.mem_cons_of_mem _ h1

theorem firstIdx_lt_length (v : ℚ) (l : List ℚ) (h : v ∈ l) :
    firstIdx v l < l.length := by
  induction l with
  | nil => cases h
  | cons x xs ih =>
    simp only [firstIdx, List.length_cons]
    by_cases hxv : x = v
    · simp only [if_pos hxv]
      exact Nat.succ_pos _
    · simp only [if_neg hxv]
      have hv : v ∈ xs := by
        rcases List.mem_cons.mp h with rfl | h2
        · exact absurd rfl hxv
        · exact h2
      exact Nat.succ_lt_succ (ih hv)

theorem getElem?_firstIdx (v : ℚ) (l : List ℚ) (h : v ∈ l) :
    l[firstIdx v l]? = some v := by
  induction l with
  | nil => cases h
  | cons x xs ih =>
    by_cases hxv : x = v
    · simp only [firstIdx, if_pos hxv, List.getElem?_cons_zero]
      rw [hxv]
    · have hv : v ∈ xs := by
        rcases List.mem_cons.mp h with rfl | h2
        · exact absurd rfl hxv
        · exact h2
      simp only [firstIdx, if_neg hxv, List.getElem?_cons_succ]
      exact ih hv

theorem getElem?_lt_firstIdx (v : ℚ) (l : List ℚ) (j : ℕ) (h : j < firstIdx v l) :
    l[j]? ≠ some v := by
  induction l generalizing j with
  | nil => simp
  | cons x xs ih =>
    by_cases hxv : x = v
    · simp only [firstIdx, if_pos hxv] at h
      cases h
    · simp only [firstIdx, if_neg hxv] at h
      match j with
      | 0 =>
        simp only [List.getElem?_cons_zero]
        intro hc
        exact hxv (Option.some.inj hc)
      | j + 1 =>
        simp only [List.getElem?_cons_succ]
        exact ih j (Nat.lt_of_succ_lt_succ h)

theorem firstIdx_eq (v : ℚ) (l : List ℚ) (k : ℕ) (hk : l[k]? = some v)
    (hbefore : ∀ j, j < k → l[j]? ≠ some v) : firstIdx v l = k := by
  induction l generalizing k with
  | nil => simp at hk
  | cons x xs ih =>
    match k with
    | 0 =>
      simp only [List.getElem?_cons_zero] at hk
      simp only [firstIdx, if_pos (Option.some.inj hk)]
    | k + 1 =>
      have hxv : ¬ x = v := by
        intro hc
        exact hbefore 0 (Nat.succ_pos k) (by simp [hc])
      simp only [firstIdx, if_neg hxv]
      simp only [List.getElem?_cons_succ] at hk
      refine congrArg Nat.succ (ih k hk ?_)
      intro j hj
      have := hbefore (j + 1) (Nat.succ_lt_succ hj)
      simpa using this

theorem foldl_append_singleton {α β : Type} (g : α → β) (es : List α)
    (init : List β) :
    es.foldl (fun acc e => acc ++ [g e]) init = init ++ es.map g := by
  induction es generalizing init with
  | nil => simp
  | cons e es ih =>
    simp only [List.foldl_cons, List.map_cons]
    rw [ih]
    simp

theorem digits_two_of (m : ℕ) (h10 : 10 ≤ m) (h100 : m < 100) :
    Nat.digits 10 m = [m % 10, m / 10] := by
  rw [Nat.digits_def' (by norm_num : (1 : ℕ) < 10) (by omega : 0 < m)]
  rw [Nat.digits_of_lt 10 (m / 10) (by omega) (by omega)]

theorem decodeMarker_eq (table : List ℕ) (m : ℕ) :
    decodeMarker table m =
      if 10 ≤ m ∧ m < 100 ∧ m / 10 ∈ table then some (m / 10) else none := by
  rcases lt_or_le m 10 with h10 | h10
  · have hlen : (Nat.digits 10 m).length ≠ 2 := by
      rcases Nat.eq_zero_or_pos m with rfl | hm
      · simp
      · rw [Nat.digits_of_lt 10 m (by omega) h10]
        simp
    rw [decodeMarker, if_neg hlen, if_neg (by omega : ¬ (10 ≤ m ∧ m < 100 ∧ m / 10 ∈ table))]
  · rcases lt_or_le m 100 with h100 | h100
    · have hd := digits_two_of m h10 h100
      rw [decodeMarker, hd]
      rw [if_pos (by rfl : ([m % 10, m / 10] : List ℕ).length = 2)]
      have hg : ([m % 10, m / 10] : List ℕ).getLastD 0 = m / 10 := rfl
      rw [hg]
      by_cases ht : m / 10 ∈ table
      · rw [if_pos ht, if_pos ⟨h10, h100, ht⟩]
      · rw [if_neg ht, if_neg (by tauto : ¬ (10 ≤ m ∧ m < 100 ∧ m / 10 ∈ table))]
    · have h1 : Nat.digits 10 m = m % 10 :: Nat.digits 10 (m / 10) :=
        Nat.digits_def' (by norm_num) (by omega)
      have h2 : Nat.digits 10 (m / 10) = (m / 10) % 10 :: Nat.digits 10 (m / 10 / 10) :=
        Nat.digits_def' (by norm_num) (by omega)
      have h3 : Nat.digits 10 (m / 10 / 10) ≠ [] :=
        Nat.digits_ne_nil_iff_ne_zero.mpr (by omega)
      have h4 : (Nat.digits 10 (m / 10 / 10)).length ≠ 0 := by
        intro hz
        exact h3 (List.length_eq_zero.mp hz)
      have hlen : (Nat.digits 10 m).length ≠ 2 := by
        rw [h1, h2]
        simp only [List.length_cons]
        omega
      rw [decodeMarker, if_neg hlen, if_neg (by omega : ¬ (10 ≤ m ∧ m < 100 ∧ m / 10 ∈ table))]

/-!
## Claim theorems
-/

/-- C1, counterexample: the aggregated label of the neural path is not the
argmax of the column sums of the model-summed probability matrix.  With a
single model whose four per-crop probability rows are
[0,0,0,10], [5,0,0,4], [5,0,0,4], [5,0,0,4], class 3 has the largest
column sum (22 against 15), so the spec-side label is 3, yet `predict`
returns 0: the code takes a per-crop argmax (votes 3,0,0,0) and then a
majority vote. -/
theorem c1_counterexample :
    specNeuralLabel ((normalizeModels (Models.single cexNeuralModel)).map (fun m =>
        m.predictProba (preprocessing idSteps (cropping [[0]] 500 4 (1/2)) 500
          false false false))) = 3 ∧
    predict [[0]] (Models.single cexNeuralModel) true 4 (1/2) 500 false false false
        idSteps = 0 := by
  constructor
  · have hred : (normalizeModels (Models.single cexNeuralModel)).map (fun m =>
        m.predictProba (preprocessing idSteps (cropping [[0]] 500 4 (1/2)) 500
          false false false))
        = [[[0, 0, 0, 10], [5, 0, 0, 4], [5, 0, 0, 4], [5, 0, 0, 4]]] := rfl
    rw [hred, specNeuralLabel]
    have h1 : colSums (sumMatrices
        [[[0, 0, 0, 10], [5, 0, 0, 4], [5, 0, 0, 4], [5, 0, 0, 4]]])
        = [15, 0, 0, 22] := by
      norm_num [sumMatrices, colSums]
    rw [h1]
    decide
  · decide

/-- C1, amended: on the neural path, for every epoch, model list and crop
configuration producing a non-empty vote list, the aggregated label is the
most frequent value among the per-crop argmax labels of the matrix obtained
by summing the per-crop probability matrices elementwise across models
(per-row argmax ties broken by lowest class index), with ties between vote
counts broken by the first-encountered vote — not the argmax of the
column sums. -/
theorem c1_neural_majority_of_crop_argmax (X : Mat) (ms : List Model)
    (n_crops : ℕ) (crop_len fs : ℚ) (r f s : Bool) (pp : PreprocSteps)
    (h : neuralVotes X ms n_crops crop_len fs r f s pp ≠ []) :
    predict X (Models.list ms) true n_crops crop_len fs r f s pp
        ∈ neuralVotes X ms n_crops crop_len fs r f s pp ∧
    (∀ v ∈ neuralVotes X ms n_crops crop_len fs r f s pp,
      (neuralVotes X ms n_crops crop_len fs r f s pp).count v
        ≤ (neuralVotes X ms n_crops crop_len fs r f s pp).count
            (predict X (Models.list ms) true n_crops crop_len fs r f s pp)) ∧
    ∃ l₁ l₂, neuralVotes X ms n_crops crop_len fs r f s pp
        = l₁ ++ predict X (Models.list ms) true n_crops crop_len fs r f s pp :: l₂ ∧
      ∀ y ∈ l₁, (neuralVotes X ms n_crops crop_len fs r f s pp).count y
        < (neuralVotes X ms n_crops crop_len fs r f s pp).count
            (predict X (Models.list ms) true n_crops crop_len fs r f s pp) := by
  rw [predict_convnet]
  exact ⟨mostCommon_mem _ h, mostCommon_count_ge _, mostCommon_decomp _ h⟩

/-- C1, witness for the amended theorem at the four-crop scenario. -/
theorem c1_witness :
    neuralVotes [[0]] [cexNeuralModel] 4 (1/2) 500 false false false idSteps ≠ [] ∧
    predict [[0]] (Models.list [cexNeuralModel]) true 4 (1/2) 500 false false false
        idSteps
      ∈ neuralVotes [[0]] [cexNeuralModel] 4 (1/2) 500 false false false idSteps :=
  ⟨by decide, (c1_neural_majority_of_crop_argmax [[0]] [cexNeuralModel] 4 (1/2) 500
      false false false idSteps (by decide)).1⟩

/-- C2, code behavior at the failing input: on `recVals`/`recTimes`
(one channel, ten samples at 5 Hz), the event at 0.2 s has `end_idx = 1`,
so with a 5-sample window `start_idx = -4 < 0`; the code raises nothing and
silently returns an empty epoch through Python's negative-index slicing,
while the boundary case `start_idx = 0` (event at 1.0 s) succeeds with a
full-length epoch.  No OutOfBoundsError exists anywhere in the code. -/
theorem c2_no_out_of_bounds_error :
    ((endIdx (1/5) recTimes : ℤ) - 5 < 0) ∧
    extractEpochE recVals recTimes (1/5) 5 = Except.ok [[]] ∧
    extractEpochE recVals recTimes 1 5 = Except.ok [[0, 1, 2, 3, 4]] := by
  have he1 : endIdx (1/5) recTimes = 1 := by
    norm_num [endIdx, argminL, minL, firstIdx, recTimes]
  have he2 : endIdx 1 recTimes = 5 := by
    norm_num [endIdx, argminL, minL, firstIdx, recTimes]
  refine ⟨?_, ?_, ?_⟩
  · rw [he1]; decide
  · rw [extractEpochE, if_neg (by decide : ¬ recTimes = []), extractEpoch, he1]
    exact congrArg Except.ok (by decide)
  · rw [extractEpochE, if_neg (by decide : ¬ recTimes = []), extractEpoch, he2]
    exact congrArg Except.ok (by decide)

/-- C3: on the classical path, for every epoch and every model list whose
concatenated per-model per-crop hard labels are non-empty, the aggregated
label is the most frequent value of that concatenation, ties broken by the
label first encountered in concatenation order; in particular the vote
sequence [0, 1, 0, 1] aggregates to 0, and three models predicting
[2,2,1], [2,1,1], [1,1,1] over three crops aggregate to 1. -/
theorem c3_classical_mode_first_encounter :
    (∀ (X : Mat) (ms : List Model) (n_crops : ℕ) (crop_len fs : ℚ)
        (r f s : Bool) (pp : PreprocSteps),
      classicalVotes X ms n_crops crop_len fs ≠ [] →
        predict X (Models.list ms) false n_crops crop_len fs r f s pp
            ∈ classicalVotes X ms n_crops crop_len fs ∧
        (∀ v ∈ classicalVotes X ms n_crops crop_len fs,
          (classicalVotes X ms n_crops crop_len fs).count v
            ≤ (classicalVotes X ms n_crops crop_len fs).count
                (predict X (Models.list ms) false n_crops crop_len fs r f s pp)) ∧
        ∃ l₁ l₂, classicalVotes X ms n_crops crop_len fs
            = l₁ ++ predict X (Models.list ms) false n_crops crop_len fs r f s pp :: l₂ ∧
          ∀ y ∈ l₁, (classicalVotes X ms n_crops crop_len fs).count y
            < (classicalVotes X ms n_crops crop_len fs).count
                (predict X (Models.list ms) false n_crops crop_len fs r f s pp)) ∧
    predict [[0]] (Models.single mval0101) false 4 (1/2) 500 false false false
        idSteps = 0 ∧
    predict [[0]] (Models.list [mval221, mval211, mval111]) false 3 (1/2) 500
        false false false idSteps = 1 := by
  refine ⟨?_, by decide, by decide⟩
  intro X ms n_crops crop_len fs r f s pp h
  rw [predict_classical]
  exact ⟨mostCommon_mem _ h, mostCommon_count_ge _, mostCommon_decomp _ h⟩

/-- C3, witness at the three-model scenario. -/
theorem c3_witness :
    classicalVotes [[0]] [mval221, mval211, mval111] 3 (1/2) 500 ≠ [] ∧
    predict [[0]] (Models.list [mval221, mval211, mval111]) false 3 (1/2) 500
        false false false idSteps
      ∈ classicalVotes [[0]] [mval221, mval211, mval111] 3 (1/2) 500 :=
  ⟨by decide, (c3_classical_mode_first_encounter.1 [[0]] [mval221, mval211, mval111]
      3 (1/2) 500 false false false idSteps (by decide)).1⟩

/-- C4: the nearest-sample lookup `endIdx` returns an in-range index whose
absolute difference to the event timestamp is minimal, every strictly
earlier index has a strictly larger difference (ties are broken by the
lowest index), and when the timestamp equals `times[k]` for strictly
increasing timestamps the returned index is exactly `k`. -/
theorem c4_nearest_sample (ts : ℚ) (times : List ℚ) (h : times ≠ []) :
    endIdx ts times < times.length ∧
    (∀ (he : endIdx ts times < times.length) (j : ℕ) (hj : j < times.length),
      |ts - times[endIdx ts times]| ≤ |ts - times[j]|) ∧
    (∀ (he : endIdx ts times < times.length) (j : ℕ) (hj : j < times.length),
      j < endIdx ts times → |ts - times[endIdx ts times]| < |ts - times[j]|) ∧
    (∀ (k : ℕ) (hk : k < times.length), List.Pairwise (· < ·) times →
      times[k] = ts → endIdx ts times = k) := by
  have hne : times.map (fun t => |ts - t|) ≠ [] := by
    intro hd
    exact h (List.map_eq_nil_iff.mp hd)
  have hmem : minL (times.map (fun t => |ts - t|)) ∈ times.map (fun t => |ts - t|) :=
    minL_mem _ hne
  have hidx : endIdx ts times < (times.map (fun t => |ts - t|)).length :=
    firstIdx_lt_length _ _ hmem
  have hlen : (times.map (fun t => |ts - t|)).length = times.length :=
    List.length_map _ _
  have hbound : endIdx ts times < times.length := by rw [← hlen]; exact hidx
  have hval : (times.map (fun t => |ts - t|))[endIdx ts times]?
      = some (minL (times.map (fun t => |ts - t|))) := getElem?_firstIdx _ _ hmem
  have hvalE : |ts - times[endIdx ts times]| = minL (times.map (fun t => |ts - t|)) := by
    have h1 : (times.map (fun t => |ts - t|))[endIdx ts times]?
        = some |ts - times[endIdx ts times]| := by
      rw [List.getElem?_eq_getElem hidx]
      simp [List.getElem_map]
    rw [h1] at hval
    exact Option.some.inj hval
  refine ⟨hbound, ?_, ?_, ?_⟩
  · intro he j hj
    rw [hvalE]
    exact minL_le _ _ (List.mem_map.mpr ⟨times[j], List.getElem_mem _, rfl⟩)
  · intro he j hj hje
    have hj2 : j < (times.map (fun t => |ts - t|)).length := by rw [hlen]; exact hj
    have hne2 : (times.map (fun t => |ts - t|))[j]?
        ≠ some (minL (times.map (fun t => |ts - t|))) :=
      getElem?_lt_firstIdx _ _ j hje
    have h1 : (times.map (fun t => |ts - t|))[j]? = some |ts - times[j]| := by
      rw [List.getElem?_eq_getElem hj2]
      simp [List.getElem_map]
    rw [h1] at hne2
    have hne3 : |ts - times[j]| ≠ minL (times.map (fun t => |ts - t|)) := by
      intro hc
      exact hne2 (congrArg some hc)
    have hle : minL (times.map (fun t => |ts - t|)) ≤ |ts - times[j]| :=
      minL_le _ _ (List.mem_map.mpr ⟨times[j], List.getElem_mem _, rfl⟩)
    rw [hvalE]
    exact lt_of_le_of_ne hle (Ne.symm hne3)
  · intro k hk hpw hts
    have hk2 : k < (times.map (fun t => |ts - t|)).length := by rw [hlen]; exact hk
    have hdk : (times.map (fun t => |ts - t|))[k]? = some 0 := by
      rw [List.getElem?_eq_getElem hk2]
      simp [List.getElem_map, hts]
    have hmin0 : minL (times.map (fun t => |ts - t|)) = 0 := by
      refine le_antisymm ?_ ?_
      · refine minL_le _ 0 ?_
        refine List.mem_map.mpr ⟨times[k], List.getElem_mem _, ?_⟩
        rw [hts]
        simp
      · rcases List.mem_map.mp hmem with ⟨t, _, hteq⟩
        rw [← hteq]
        exact abs_nonneg _
    show firstIdx (minL (times.map (fun t => |ts - t|))) (times.map (fun t => |ts - t|)) = k
    rw [hmin0]
    refine firstIdx_eq 0 _ k hdk ?_
    intro j hjk
    have hjlen : j < times.length := lt_trans hjk hk
    have hjlen2 : j < (times.map (fun t => |ts - t|)).length := by rw [hlen]; exact hjlen
    rw [List.getElem?_eq_getElem hjlen2]
    simp only [List.getElem_map]
    intro hc
    have h0 : |ts - times[j]| = 0 := Option.some.inj hc
    have heq : times[j] = ts := by
      have := abs_eq_zero.mp h0
      linarith
    have hjk2 : times[j] < times[k] := List.pairwise_iff_getElem.mp hpw j k hjlen hk hjk
    rw [hts, heq] at hjk2
    exact lt_irrefl ts hjk2

/-- C4, witness: for timestamps 0, 1, 2 and event timestamp 1 the lookup
returns index 1. -/
theorem c4_witness : endIdx 1 [0, 1, 2] = 1 :=
  (c4_nearest_sample 1 [0, 1, 2] (by decide)).2.2.2 1 (by decide)
    (by decide) (by decide)

/-- C5: the event decoder emits an event for a marker if and only if the
marker's decimal representation has exactly two digits (that is,
10 ≤ marker ≤ 99) and its first digit (marker / 10) is a key of the
decoding table; every other marker is silently dropped; each accepted
event is stored as `(raw_sample_index / sampling_rate, first_digit)`, in
stream order. -/
theorem c5_event_decoder (table : List ℕ) (fs : ℚ) (events : List (ℕ × ℕ)) :
    storedEvents table fs events = events.filterMap (fun p =>
      if 10 ≤ p.2 ∧ p.2 < 100 ∧ p.2 / 10 ∈ table
      then some ((p.1 : ℚ) / fs, p.2 / 10) else none) := by
  rw [storedEvents, decodeRun, List.map_filterMap]
  refine List.filterMap_congr ?_
  intro p _
  rw [decodeMarker_eq]
  by_cases h : 10 ≤ p.2 ∧ p.2 < 100 ∧ p.2 / 10 ∈ table
  · rw [if_pos h, if_pos h]
    rfl
  · rw [if_neg h, if_neg h]
    rfl

/-- C6, counterexample: on a recording with five timestamps but only three
samples per channel, epoch extraction does not fail with
ConfigurationError; it silently returns a slice (here one sample per
channel instead of the requested two). -/
theorem c6_counterexample :
    cexValues.map List.length = [3, 3] ∧
    cexTimes.length = 5 ∧
    extractEpochE cexValues cexTimes 4 2 = Except.ok [[3], [6]] := by
  have he : endIdx 4 cexTimes = 4 := by
    norm_num [endIdx, argminL, minL, firstIdx, cexTimes]
  refine ⟨by decide, by decide, ?_⟩
  rw [extractEpochE, if_neg (by decide : ¬ cexTimes = []), extractEpoch, he]
  exact congrArg Except.ok (by decide)

/-- C6, amended: the code performs no shape validation at all: for every
recording with a non-empty timestamp vector — whether or not
`len(timestamps) == values.shape[-1]` — extraction proceeds and returns
the slice, never a ConfigurationError. -/
theorem c6_no_shape_validation (values : Mat) (times : List ℚ) (ts : ℚ)
    (win_len : ℕ) (h : times ≠ []) :
    extractEpochE values times ts win_len
      = Except.ok (extractEpoch values times ts win_len) := by
  rw [extractEpochE, if_neg h]

/-- C6, witness for the amended theorem at the mismatched recording. -/
theorem c6_witness :
    cexTimes ≠ [] ∧
    extractEpochE cexValues cexTimes 4 2
      = Except.ok (extractEpoch cexValues cexTimes 4 2) :=
  ⟨by decide, c6_no_shape_validation cexValues cexTimes 4 2 (by decide)⟩

/-- C7: on the classical path the preprocessing chain is never applied:
the predicted label is identical under any two settings of the
re-reference, filter and standardize flags. -/
theorem c7_classical_ignores_preprocessing (X : Mat) (models : Models)
    (n_crops : ℕ) (crop_len fs : ℚ) (r₁ f₁ s₁ r₂ f₂ s₂ : Bool)
    (pp : PreprocSteps) :
    predict X models false n_crops crop_len fs r₁ f₁ s₁ pp
      = predict X models false n_crops crop_len fs r₂ f₂ s₂ pp := rfl

/-- C8: the neural-path aggregation is deterministic: two runs of the
pipeline on identical epoch data, identical model handles and identical
configuration yield the identical summed probability matrix and the
identical final label. -/
theorem c8_neural_deterministic (X₁ X₂ : Mat) (models₁ models₂ : Models)
    (n₁ n₂ : ℕ) (cl₁ cl₂ fs₁ fs₂ : ℚ) (r₁ r₂ f₁ f₂ s₁ s₂ : Bool)
    (pp₁ pp₂ : PreprocSteps)
    (hX : X₁ = X₂) (hm : models₁ = models₂) (hn : n₁ = n₂) (hcl : cl₁ = cl₂)
    (hfs : fs₁ = fs₂) (hr : r₁ = r₂) (hf : f₁ = f₂) (hs : s₁ = s₂)
    (hpp : pp₁ = pp₂) :
    neuralSummedProbs X₁ (normalizeModels models₁) n₁ cl₁ fs₁ r₁ f₁ s₁ pp₁
      = neuralSummedProbs X₂ (normalizeModels models₂) n₂ cl₂ fs₂ r₂ f₂ s₂ pp₂ ∧
    predict X₁ models₁ true n₁ cl₁ fs₁ r₁ f₁ s₁ pp₁
      = predict X₂ models₂ true n₂ cl₂ fs₂ r₂ f₂ s₂ pp₂ := by
  subst hX hm hn hcl hfs hr hf hs hpp
  exact ⟨rfl, rfl⟩

/-- C8, witness at the four-crop scenario. -/
theorem c8_witness :
    neuralSummedProbs [[0]] (normalizeModels (Models.single cexNeuralModel))
        4 (1/2) 500 false false false idSteps
      = neuralSummedProbs [[0]] (normalizeModels (Models.single cexNeuralModel))
        4 (1/2) 500 false false false idSteps ∧
    predict [[0]] (Models.single cexNeuralModel) true 4 (1/2) 500
        false false false idSteps
      = predict [[0]] (Models.single cexNeuralModel) true 4 (1/2) 500
        false false false idSteps :=
  c8_neural_deterministic [[0]] [[0]] (Models.single cexNeuralModel)
    (Models.single cexNeuralModel) 4 4 (1/2) (1/2) 500 500 false false
    false false false false idSteps idSteps rfl rfl rfl rfl rfl rfl rfl rfl rfl

/-- C9: predicting with a bare model handle gives the same label as
predicting with the one-element list of that handle, on both paths. -/
theorem c9_single_model_normalization (X : Mat) (m : Model)
    (is_convnet : Bool) (n_crops : ℕ) (crop_len fs : ℚ) (r f s : Bool)
    (pp : PreprocSteps) :
    predict X (Models.single m) is_convnet n_crops crop_len fs r f s pp
      = predict X (Models.list [m]) is_convnet n_crops crop_len fs r f s pp := rfl

/-- C10: a validation pass starts from the empty log and appends exactly
one (timestamp, ground truth, prediction) triple per decoded event, in
event order, so the final log is the in-order image of the event list; in
particular its length equals the number of events and its timestamp column
is the events' timestamp column. -/
theorem c10_validation_log (cfg : RunConfig) (d : RunData) :
    validationPass cfg d = d.events.map (processEvent cfg d) ∧
    (validationPass cfg d).length = d.events.length ∧
    (validationPass cfg d).map (fun t => t.1) = d.events.map (fun e => e.1) := by
  have h : validationPass cfg d = d.events.map (processEvent cfg d) := by
    rw [validationPass, onValidate, foldl_append_singleton]
    rfl
  refine ⟨h, ?_, ?_⟩
  · rw [h, List.length_map]
  · rw [h, List.map_map]
    rfl

end Cybathlon
